import Mathlib

/-
Verification of the klvgen UDP KLV-packet generator (klvgen.c / main.c)
against its natural-language specification.

Shallow embedding conventions:
- machine integers are `Nat` / `Int`, reduced modulo `2 ^ w` exactly where the
  C code's fixed-width arithmetic wraps or converts;
- byte buffers are `List Nat` with entries below 256;
- the C `float` and `double` arithmetic of the unit mappers is modelled
  bit-exactly: values are dyadic rationals and every operation rounds its
  exact result to 24 (`float`) or 53 (`double`) significand bits, to
  nearest with ties to even, as IEEE 754 prescribes in the normal range;
  the truncating `(int32_t)` cast rounds toward zero;
- host endianness, probed at run time by `sysIsBigEndian` (klvgen.c:178-185)
  by inspecting the byte layout of a union, is a `Bool` parameter `isBE` of
  every definition that depends on the memory layout of a multi-byte integer.
-/

namespace Klvgen

/-- The little-endian object representation of a `w`-byte unsigned integer:
byte `i` is `x / 256 ^ i % 256`. -/
def bytesLE (w x : Nat) : List Nat :=
  (List.range w).map (fun i => x / 256 ^ i % 256)

/-- The in-memory byte sequence of a `w`-byte unsigned integer on a host of
endianness `isBE`; a `memcpy` out of the integer object reads exactly these
bytes in order. -/
def memBytes (isBE : Bool) (w x : Nat) : List Nat :=
  if isBE then (bytesLE w x).reverse else bytesLE w x

/-- Network (big-endian) byte order of a `w`-byte unsigned integer. -/
def beBytes (w x : Nat) : List Nat :=
  (bytesLE w x).reverse

/-- The sub-list of `len` bytes of `l` starting at offset `off`. -/
def listSlice (l : List Nat) (off len : Nat) : List Nat :=
  (l.drop off).take len

/-- UAS LDS version constant `ldsVersion = 0x02` (klvgen.c:73). -/
def ldsVersion : Nat := 0x02

/-- The 16-byte UAS LDS universal key `uasLdsKey` (klvgen.c:74-75). -/
def uasLdsKey : List Nat :=
  [0x06, 0x0E, 0x2B, 0x34, 0x02, 0x0B, 0x01, 0x01,
   0x0E, 0x01, 0x03, 0x01, 0x01, 0x00, 0x00, 0x00]

/-- The constant `PACKET_LENGTH = 78` (klvgen.c:76). -/
def PACKET_LENGTH : Nat := 78

/-- The BER short-form set length byte `msgLength = 0x3D` (klvgen.c:79). -/
def msgLength : Nat := 0x3D

/-- Tag and length bytes for the timestamp item (klvgen.c:82). -/
def timestampTagLen : List Nat := [0x02, 0x08]

/-- Tag and length bytes for the mission id item (klvgen.c:83). -/
def missionTagLen : List Nat := [0x03, 0x0C]

/-- Tag and length bytes for the platform item (klvgen.c:84). -/
def platformTagLen : List Nat := [0x0A, 0x0C]

/-- Tag and length bytes for the latitude item (klvgen.c:85). -/
def latitudeTagLen : List Nat := [0x0D, 0x04]

/-- Tag and length bytes for the longitude item (klvgen.c:86). -/
def longitudeTagLen : List Nat := [0x0E, 0x04]

/-- Tag and length bytes for the altitude item (klvgen.c:87). -/
def altitudeTagLen : List Nat := [0x0F, 0x02]

/-- Tag and length bytes for the version item (klvgen.c:88). -/
def versionTagLen : List Nat := [0x41, 0x01]

/-- Tag and length bytes for the checksum item (klvgen.c:89). -/
def checksumTagLen : List Nat := [0x01, 0x02]

/-- The function `makeChecksum` (klvgen.c:169-174): iterates bytes
`0 .. len-1`; byte `i` is shifted left by `8 * ((i + 1) % 2)` bits and added
into the `uint16_t` accumulator `bcc`, which wraps modulo `2 ^ 16`. -/
def makeChecksum (buff : List Nat) (len : Nat) : Nat :=
  (List.range len).foldl
    (fun bcc i => (bcc + (buff.getD i 0 <<< (8 * ((i + 1) % 2)))) % 65536) 0

/-- The file-scope encoded-field globals of klvgen.c that `makePacket` reads:
the two 12-byte character arrays as byte lists and each fixed-width integer
global as the unsigned value of its object representation (already in the
byte order `main` stored it in). -/
structure KlvState where
  timestamp : Nat
  missionId : List Nat
  platform : List Nat
  latitude : Nat
  longitude : Nat
  altitude : Nat

/-- The first 76 bytes assembled by `makePacket` (klvgen.c:203-219): each
`memcpy` of an integer global contributes that global's in-memory bytes
(`memBytes isBE`), and each array `memcpy` contributes the array bytes. -/
def packetHead (isBE : Bool) (s : KlvState) : List Nat :=
  uasLdsKey ++ ([msgLength] ++ (timestampTagLen ++ (memBytes isBE 8 s.timestamp ++
  (missionTagLen ++ (s.missionId ++ (platformTagLen ++ (s.platform ++
  (latitudeTagLen ++ (memBytes isBE 4 s.latitude ++
  (longitudeTagLen ++ (memBytes isBE 4 s.longitude ++
  (altitudeTagLen ++ (memBytes isBE 2 s.altitude ++
  (versionTagLen ++ ([ldsVersion] ++ checksumTagLen)))))))))))))))

/-- The function `makePacket` (klvgen.c:201-224): after the first 76 bytes it
computes `checksum = makeChecksum(buff, 76)` into the `uint32_t` global
`checksum` and then runs `memcpy(&buff[76], &checksum, 2)`, which copies the
FIRST two bytes of the 4-byte object representation of that `uint32_t`. -/
def makePacket (isBE : Bool) (s : KlvState) : List Nat :=
  packetHead isBE s ++ (memBytes isBE 4 (makeChecksum (packetHead isBE s) 76)).take 2

/-- The function `htonll` (klvgen.c:189-195): identity when
`sysIsBigEndian()` holds, otherwise the explicit mask-and-shift 8-byte
reversal written in the source. The host endianness probed by
`sysIsBigEndian` (klvgen.c:178-185) is the parameter `isBE`. -/
def htonll (isBE : Bool) (num : Nat) : Nat :=
  if isBE then num
  else
    ((num &&& 0xFF) <<< 56) ||| ((num &&& 0xFF00000000000000) >>> 56) |||
    ((num &&& 0xFF00) <<< 40) ||| ((num &&& 0x00FF000000000000) >>> 40) |||
    ((num &&& 0xFF0000) <<< 24) ||| ((num &&& 0x0000FF0000000000) >>> 24) |||
    ((num &&& 0xFF000000) <<< 8) ||| ((num &&& 0x000000FF00000000) >>> 8)

/-- Byte reversal of a 32-bit unsigned value. -/
def swap32 (x : Nat) : Nat :=
  2 ^ 24 * (x % 256) + (2 ^ 16 * (x / 2 ^ 8 % 256) +
    (2 ^ 8 * (x / 2 ^ 16 % 256) + x / 2 ^ 24 % 256))

/-- Byte swap of a 16-bit unsigned value. -/
def swap16 (x : Nat) : Nat :=
  2 ^ 8 * (x % 256) + x / 2 ^ 8 % 256

/-- Model of the C library `htonl` used by `main`: identity on a big-endian
host, 32-bit byte reversal on a little-endian host. -/
def htonl (isBE : Bool) (x : Nat) : Nat :=
  if isBE then x % 2 ^ 32 else swap32 (x % 2 ^ 32)

/-- Model of the C library `htons` used by `main`: identity on a big-endian
host, 16-bit byte swap on a little-endian host. -/
def htons (isBE : Bool) (x : Nat) : Nat :=
  if isBE then x % 2 ^ 16 else swap16 (x % 2 ^ 16)

/-- The C conversion of a signed integer value to `uint32_t`: reduction
modulo `2 ^ 32`. -/
def asUInt32 (v : Int) : Nat :=
  (v % (2 ^ 32 : Int)).toNat

/-- The C conversion of a signed integer value to `uint64_t`: reduction
modulo `2 ^ 64`. -/
def asUInt64 (v : Int) : Nat :=
  (v % (2 ^ 64 : Int)).toNat

/-- Models the truncating C cast from a real (`float`) value to an integer:
rounding toward zero. -/
def ratTrunc (q : ℚ) : Int :=
  if 0 ≤ q then ⌊q⌋ else ⌈q⌉

/-- A binary floating-point value, as an exact dyadic rational
`m * 2 ^ e`. Operations round their exact result to a fixed number of
significand bits, modelling IEEE 754 binary arithmetic in its normal range
(the klvgen computations never overflow, underflow, or meet a NaN). -/
structure FloatVal where
  m : Int
  e : Int
deriving DecidableEq

/-- Fuel-driven binary length; the fuel is an upper bound on the recursion
depth and `bitLenAux n n` is exact for every `n`. -/
def bitLenAux : Nat → Nat → Nat
  | 0, _ => 0
  | f + 1, n => if n = 0 then 0 else bitLenAux f (n / 2) + 1

/-- Number of binary digits of `n` (0 for `n = 0`). -/
def bitLen (n : Nat) : Nat := bitLenAux n n

/-- Round the exact dyadic value `m * 2 ^ e` to `p` significand bits,
to nearest, ties to even — the IEEE 754 rounding of every binary operation. -/
def roundSig (p : Nat) (m e : Int) : FloatVal :=
  if m = 0 then ⟨0, 0⟩ else
    let n := m.natAbs
    let L := bitLen n
    if L ≤ p then ⟨m, e⟩ else
      let sh := L - p
      let q := n >>> sh
      let r := n % 2 ^ sh
      let half := 2 ^ (sh - 1)
      let q2 := if half < r ∨ (r = half ∧ q % 2 = 1) then q + 1 else q
      ⟨if m < 0 then -(q2 : Int) else (q2 : Int), e + (sh : Int)⟩

/-- The proof-side magnitude of `roundSig` on a non-negative input: the
rounded value scaled back to the input exponent. -/
def roundMag (p n : Nat) : Nat :=
  if bitLen n ≤ p then n else
    let sh := bitLen n - p
    let q := n >>> sh
    let r := n % 2 ^ sh
    let half := 2 ^ (sh - 1)
    (if half < r ∨ (r = half ∧ q % 2 = 1) then q + 1 else q) * 2 ^ sh

/-- `float` addition: exact sum of the two dyadic values, rounded to 24
significand bits. -/
def fAdd (a b : FloatVal) : FloatVal :=
  if a.e ≤ b.e then roundSig 24 (a.m + b.m * ((2 ^ (b.e - a.e).toNat : Nat) : Int)) a.e
  else roundSig 24 (a.m * ((2 ^ (a.e - b.e).toNat : Nat) : Int) + b.m) b.e

/-- `float` subtraction. -/
def fSub (a b : FloatVal) : FloatVal := fAdd a ⟨-b.m, b.e⟩

/-- `float` multiplication: exact product, rounded to 24 significand bits. -/
def fMul (a b : FloatVal) : FloatVal := roundSig 24 (a.m * b.m) (a.e + b.e)

/-- Correctly rounded floating-point division to `p` significand bits: the
exact quotient is computed with `p + 2` guard bits plus a sticky remainder
and rounded to nearest, ties to even. -/
def fDivP (p : Nat) (a b : FloatVal) : FloatVal :=
  if a.m = 0 ∨ b.m = 0 then ⟨0, 0⟩ else
    let na := a.m.natAbs
    let nb := b.m.natAbs
    let k : Int := (bitLen nb : Int) + (p : Int) + 2 - (bitLen na : Int)
    let N := if 0 ≤ k then na * 2 ^ k.toNat else na
    let D := if 0 ≤ k then nb else nb * 2 ^ (-k).toNat
    let q := N / D
    let r := N % D
    let L := bitLen q
    let sh := L - p
    let qh := q >>> sh
    let frac := q % 2 ^ sh
    let half := 2 ^ (sh - 1)
    let q2 := if half < frac ∨ (frac = half ∧ (r ≠ 0 ∨ qh % 2 = 1)) then qh + 1 else qh
    let sgn : Int := if (a.m < 0) = (b.m < 0) then 1 else -1
    ⟨sgn * (q2 : Int), a.e - b.e - k + (sh : Int)⟩

/-- `float` division. -/
def fDiv (a b : FloatVal) : FloatVal := fDivP 24 a b

/-- Conversion of an integer (or of a small integral `double` literal such
as `-90.0` or `-2147483647.0`) to `float`: one rounding to 24 bits. -/
def floatOfInt (z : Int) : FloatVal := roundSig 24 z 0

/-- `atof`: the decimal string denoting the rational `q` is correctly
rounded to a `double` (53 significand bits). -/
def doubleOfRat (q : ℚ) : FloatVal := fDivP 53 ⟨q.num, 0⟩ ⟨(q.den : Int), 0⟩

/-- The value of a string assigned to a `float` variable: `atof` rounds it
to `double`, the assignment rounds that to `float`. -/
def floatOfRat (q : ℚ) : FloatVal :=
  roundSig 24 (doubleOfRat q).m (doubleOfRat q).e

/-- The C cast from `float` to a signed integer: truncation toward zero of
the dyadic value (for a value outside the int32 range the C cast is
undefined; the model returns the mathematical truncation). -/
def floatToInt (d : FloatVal) : Int :=
  if 0 ≤ d.e then d.m * ((2 ^ d.e.toNat : Nat) : Int)
  else if d.m < 0 then -((d.m.natAbs / 2 ^ (-d.e).toNat : Nat) : Int)
  else ((d.m.natAbs / 2 ^ (-d.e).toNat : Nat) : Int)

/-- The exact rational value of a floating-point model value. -/
def fval (d : FloatVal) : ℚ := (d.m : ℚ) * (2 : ℚ) ^ d.e

/-- The function `mapValue` (klvgen.c:97-99), over binary32 arithmetic:
every operation of `(int32_t)(outStart + ((outEnd - outStart) /
(inEnd - inStart)) * (val - inStart))` is a `float` operation (rounded to
24 bits), and the final cast truncates toward zero. -/
def mapValue (val inStart inEnd outStart outEnd : FloatVal) : Int :=
  floatToInt (fAdd outStart
    (fMul (fDiv (fSub outEnd outStart) (fSub inEnd inStart)) (fSub val inStart)))

/-- The function `mapLatitude` (klvgen.c:102-105): the string argument is
represented by the rational value it denotes, parsed by `atof` and stored
into the `float` local `lat`; the `double` literals `-90.0`, `90.0`,
`-2147483647.0`, `2147483647.0` are converted to `float` at the call. -/
def mapLatitude (lat : ℚ) : Int :=
  mapValue (floatOfRat lat) (floatOfInt (-90)) (floatOfInt 90)
    (floatOfInt (-2147483647)) (floatOfInt 2147483647)

/-- The function `mapLongitude` (klvgen.c:109-112), as `mapLatitude` with
the input range [-180, 180]. -/
def mapLongitude (lon : ℚ) : Int :=
  mapValue (floatOfRat lon) (floatOfInt (-180)) (floatOfInt 180)
    (floatOfInt (-2147483647)) (floatOfInt 2147483647)

/-- The integer code `mapValue(alt, -900, 19000, 0, 65535)` computed by
`mapAltitude` (klvgen.c:116-119) for the already-truncated integer
argument `alt` (an `int` promoted to `float` at the call). -/
def altCode (a : Int) : Int :=
  mapValue (floatOfInt a) (floatOfInt (-900)) (floatOfInt 19000)
    (floatOfInt 0) (floatOfInt 65535)

/-- The `float` affine value `0 + (65535 - 0) / (19000 - (-900)) *
(alt - (-900))` computed inside `mapAltitude` before the integer cast. -/
def altFloat (a : Int) : FloatVal :=
  fAdd (floatOfInt 0)
    (fMul (fDiv (fSub (floatOfInt 65535) (floatOfInt 0))
        (fSub (floatOfInt 19000) (floatOfInt (-900))))
      (fSub (floatOfInt a) (floatOfInt (-900))))

/-- The function `mapAltitude` (klvgen.c:116-119): the string is parsed
with `atoi`, which keeps only the integer part (truncation toward zero) of
the value the string denotes; the `mapValue` result is converted to
`uint16_t` (reduction modulo `2 ^ 16`). -/
def mapAltitude (alt : ℚ) : Nat :=
  (altCode (ratTrunc alt) % 65536).toNat

/-- Follows the words of the spec (section 4.1): the exact affine altitude
mapping `0 + (65535 - 0) / (19000 - (-900)) * (alt - (-900))` truncated
toward zero, written in integer arithmetic for integer inputs at least
-900 (where truncation toward zero is the floor). -/
def exactAltCode (a : Int) : Int := 65535 * (a + 900) / 19900

/-- The WIN32 branch of `updateTimestamp` (klvgen.c:249-252): `now` and
`epoch` are the two `ULARGE_INTEGER` 100-nanosecond FILETIME values; the
difference is divided by 10 when `now > epoch`, else 0 is returned. -/
def updateTimestampWin (now epoch : Nat) : Nat :=
  if now > epoch then (now - epoch) / 10 else 0

/-- The Linux branch of `updateTimestamp` (klvgen.c:254-256):
`(uint64_t)ts.tv_sec * 1000000 + (uint64_t)ts.tv_nsec / 1000`, where each
cast of a signed field reduces modulo `2 ^ 64` and the unsigned 64-bit sum
and product wrap modulo `2 ^ 64`. -/
def updateTimestampLinux (sec nsec : Int) : Nat :=
  (asUInt64 sec * 1000000 % 2 ^ 64 + asUInt64 nsec / 1000) % 2 ^ 64

/-- Two's-complement bitwise XOR of two 64-bit signed integers, through the
unsigned 64-bit representation. -/
def xor64 (a b : Int) : Int :=
  if (asUInt64 a ^^^ asUInt64 b) < 2 ^ 63 then ((asUInt64 a ^^^ asUInt64 b : Nat) : Int)
  else ((asUInt64 a ^^^ asUInt64 b : Nat) : Int) - 2 ^ 64

/-- The macOS branch of `updateTimestamp` (klvgen.c:258-266): the source
returns `(uint64_t)((ts.tv_sec * 10^9) + ts.tv_nsec)`, and in C `^` is
bitwise XOR with lower precedence than `*`, so the value is
`((tv_sec * 10) XOR 9) + tv_nsec`, converted to `uint64_t`. -/
def updateTimestampMac (sec nsec : Int) : Nat :=
  asUInt64 (xor64 (sec * 10) 9 + nsec)

/-- The mutable configuration globals of main.c: `address`, `servPort`,
`sendRate`, `missionId`, `platform`, and the three already-encoded,
already-byte-ordered field globals `latitude`, `longitude`, `altitude`
exactly as `main` stores them. -/
structure Config where
  address : String
  servPort : Int
  sendRate : ℚ
  missionId : String
  platform : String
  latitude : Nat
  longitude : Nat
  altitude : Nat

/-- One command-line option event as delivered by `getopt_long`
(main.c:71): the numeric options carry the value their argument string
denotes (`atof` / `atol`). -/
inductive OptEvent where
  | addr (s : String)
  | port (n : Int)
  | rate (q : ℚ)
  | mission (s : String)
  | platformName (s : String)
  | lat (q : ℚ)
  | lon (q : ℚ)
  | alt (q : ℚ)
  | helpOpt
  | versionOpt
  | unknownOpt

/-- The default configuration set by `main` before option processing
(main.c:41-50). -/
def defaultConfig (isBE : Bool) : Config where
  address := "127.0.0.1"
  servPort := 9000
  sendRate := 1
  missionId := "Mission 01"
  platform := "Demo"
  latitude := htonl isBE (asUInt32 (mapLatitude (4464423 / 100000)))
  longitude := htonl isBE (asUInt32 (mapLongitude (-9324013 / 100000)))
  altitude := htons isBE (mapAltitude 333)

/-- One iteration of the option `switch` of `main` (main.c:71-137): `none`
when the branch reaches `exit(0)` (rate above 1,000,000; latitude outside
[-90, 90]; longitude outside [-180, 180]; altitude outside [-900, 19000];
help; version; unknown option), otherwise the updated configuration. The
`strncpy` calls with a forced terminator keep at most 15 address and 12
mission/platform characters. -/
def processOpt (isBE : Bool) (c : Config) : OptEvent → Option Config
  | .addr s => some { c with address := s.take 15 }
  | .port n => some { c with servPort := n }
  | .rate q => if q > 1000000 then none else some { c with sendRate := q }
  | .mission s => some { c with missionId := s.take 12 }
  | .platformName s => some { c with platform := s.take 12 }
  | .lat q =>
      if q < -90 ∨ q > 90 then none
      else some { c with latitude := htonl isBE (asUInt32 (mapLatitude q)) }
  | .lon q =>
      if q < -180 ∨ q > 180 then none
      else some { c with longitude := htonl isBE (asUInt32 (mapLongitude q)) }
  | .alt q =>
      if q < -900 ∨ q > 19000 then none
      else some { c with altitude := htons isBE (mapAltitude q) }
  | .helpOpt => none
  | .versionOpt => none
  | .unknownOpt => none

/-- The option-processing `while` loop of `main` (main.c:71-138): processes
the option events in order; `none` when some branch called `exit(0)`. -/
def processOptions (isBE : Bool) : List OptEvent → Config → Option Config
  | [], c => some c
  | e :: rest, c =>
      match processOpt isBE c e with
      | none => none
      | some c2 => processOptions isBE rest c2

/-- Whether `main` reaches the `udpInit()` transport setup (main.c:140): it
does exactly when option processing finishes without exiting; every packet
send happens after this point. -/
def reachesTransport (isBE : Bool) (opts : List OptEvent) : Bool :=
  (processOptions isBE opts (defaultConfig isBE)).isSome

/-- A concrete little-endian-host global state as the transmission loop of
`main` produces it (main.c:202-205): the timestamp passed through
`htonll`, latitude and longitude through `htonl` of their `uint32_t`
patterns, the altitude through `htons`; mission id "Mission 01" and
platform "Demo", zero-padded to 12 bytes. -/
def witState : KlvState where
  timestamp := htonll false 0x0102030405060708
  missionId := [0x4D, 0x69, 0x73, 0x73, 0x69, 0x6F, 0x6E, 0x20, 0x30, 0x31, 0x00, 0x00]
  platform := [0x44, 0x65, 0x6D, 0x6F, 0x00, 0x00, 0x00, 0x00, 0x00, 0x00, 0x00, 0x00]
  latitude := htonl false 1064272655
  longitude := htonl false (asUInt32 (-1112419378))
  altitude := htons false 4321

/-- The same concrete global state on a big-endian host: `htonll`, `htonl`
and `htons` are the identity there. -/
def witStateBE : KlvState where
  timestamp := htonll true 0x0102030405060708
  missionId := [0x4D, 0x69, 0x73, 0x73, 0x69, 0x6F, 0x6E, 0x20, 0x30, 0x31, 0x00, 0x00]
  platform := [0x44, 0x65, 0x6D, 0x6F, 0x00, 0x00, 0x00, 0x00, 0x00, 0x00, 0x00, 0x00]
  latitude := htonl true 1064272655
  longitude := htonl true (asUInt32 (-1112419378))
  altitude := htons true 4321

/-- Destructure a byte list known to have length 12 into its 12 entries. -/
theorem exists_twelve (l : List Nat) (h : l.length = 12) :
    ∃ a b c d e f g h2 i j k m, l = [a, b, c, d, e, f, g, h2, i, j, k, m] := by
  rcases l with _ | ⟨a, l⟩ <;> simp_all
  rcases l with _ | ⟨b, l⟩ <;> simp_all
  rcases l with _ | ⟨c, l⟩ <;> simp_all
  rcases l with _ | ⟨d, l⟩ <;> simp_all
  rcases l with _ | ⟨e, l⟩ <;> simp_all
  rcases l with _ | ⟨f, l⟩ <;> simp_all
  rcases l with _ | ⟨g, l⟩ <;> simp_all
  rcases l with _ | ⟨h2, l⟩ <;> simp_all
  rcases l with _ | ⟨i, l⟩ <;> simp_all
  rcases l with _ | ⟨j, l⟩ <;> simp_all
  rcases l with _ | ⟨k, l⟩ <;> simp_all
  rcases l with _ | ⟨m, l⟩ <;> simp_all

/-- C1: for every host endianness and every configuration state (the two
text fields holding their fixed 12 bytes), `makePacket` produces exactly 78
bytes laid out per the fixed layout table: bytes 0-15 are the universal key
`06 0E 2B 34 02 0B 01 01 0E 01 03 01 01 00 00 00`, byte 16 is `0x3D`,
bytes 17-18 are `02 08`, bytes 71-73 are `41 01 02`, and every tag/length
pair and every field value sits at its fixed offset; in particular this
holds for the default configuration of the end-to-end scenario. -/
theorem c1_packet_layout (isBE : Bool) (s : KlvState)
    (hm : s.missionId.length = 12) (hp : s.platform.length = 12) :
    (makePacket isBE s).length = 78 ∧
    listSlice (makePacket isBE s) 0 16 = uasLdsKey ∧
    listSlice (makePacket isBE s) 16 1 = [0x3D] ∧
    listSlice (makePacket isBE s) 17 2 = [0x02, 0x08] ∧
    listSlice (makePacket isBE s) 19 8 = memBytes isBE 8 s.timestamp ∧
    listSlice (makePacket isBE s) 27 2 = [0x03, 0x0C] ∧
    listSlice (makePacket isBE s) 29 12 = s.missionId ∧
    listSlice (makePacket isBE s) 41 2 = [0x0A, 0x0C] ∧
    listSlice (makePacket isBE s) 43 12 = s.platform ∧
    listSlice (makePacket isBE s) 55 2 = [0x0D, 0x04] ∧
    listSlice (makePacket isBE s) 57 4 = memBytes isBE 4 s.latitude ∧
    listSlice (makePacket isBE s) 61 2 = [0x0E, 0x04] ∧
    listSlice (makePacket isBE s) 63 4 = memBytes isBE 4 s.longitude ∧
    listSlice (makePacket isBE s) 67 2 = [0x0F, 0x02] ∧
    listSlice (makePacket isBE s) 69 2 = memBytes isBE 2 s.altitude ∧
    listSlice (makePacket isBE s) 71 2 = [0x41, 0x01] ∧
    listSlice (makePacket isBE s) 73 1 = [0x02] ∧
    listSlice (makePacket isBE s) 74 2 = [0x01, 0x02] := by
  obtain ⟨t, mid, plat, lat, lon, alt⟩ := s
  obtain ⟨m0, m1, m2, m3, m4, m5, m6, m7, m8, m9, m10, m11, rfl⟩ := exists_twelve mid hm
  obtain ⟨p0, p1, p2, p3, p4, p5, p6, p7, p8, p9, p10, p11, rfl⟩ := exists_twelve plat hp
  cases isBE
  · exact ⟨rfl, rfl, rfl, rfl, rfl, rfl, rfl, rfl, rfl, rfl, rfl, rfl, rfl, rfl, rfl, rfl,
      rfl, rfl⟩
  · exact ⟨rfl, rfl, rfl, rfl, rfl, rfl, rfl, rfl, rfl, rfl, rfl, rfl, rfl, rfl, rfl, rfl,
      rfl, rfl⟩

/-- Witness for C1: the layout theorem applied to the concrete
little-endian-host state of the default configuration. -/
theorem c1_packet_layout_witness :
    witState.missionId.length = 12 ∧ witState.platform.length = 12 ∧
    ((makePacket false witState).length = 78 ∧
     listSlice (makePacket false witState) 0 16 = uasLdsKey ∧
     listSlice (makePacket false witState) 16 1 = [0x3D] ∧
     listSlice (makePacket false witState) 17 2 = [0x02, 0x08] ∧
     listSlice (makePacket false witState) 19 8 = memBytes false 8 witState.timestamp ∧
     listSlice (makePacket false witState) 27 2 = [0x03, 0x0C] ∧
     listSlice (makePacket false witState) 29 12 = witState.missionId ∧
     listSlice (makePacket false witState) 41 2 = [0x0A, 0x0C] ∧
     listSlice (makePacket false witState) 43 12 = witState.platform ∧
     listSlice (makePacket false witState) 55 2 = [0x0D, 0x04] ∧
     listSlice (makePacket false witState) 57 4 = memBytes false 4 witState.latitude ∧
     listSlice (makePacket false witState) 61 2 = [0x0E, 0x04] ∧
     listSlice (makePacket false witState) 63 4 = memBytes false 4 witState.longitude ∧
     listSlice (makePacket false witState) 67 2 = [0x0F, 0x02] ∧
     listSlice (makePacket false witState) 69 2 = memBytes false 2 witState.altitude ∧
     listSlice (makePacket false witState) 71 2 = [0x41, 0x01] ∧
     listSlice (makePacket false witState) 73 1 = [0x02] ∧
     listSlice (makePacket false witState) 74 2 = [0x01, 0x02]) :=
  ⟨rfl, rfl, c1_packet_layout false witState rfl rfl⟩

/-- The running 16-bit checksum fold equals the mod-65536 weighted byte sum. -/
theorem makeChecksum_eq_sum (buff : List Nat) (len : Nat) :
    makeChecksum buff len =
      (∑ i ∈ Finset.range len, buff.getD i 0 * 2 ^ (8 * ((i + 1) % 2))) % 65536 := by
  induction len with
  | zero => rfl
  | succ n ih =>
    have h1 : makeChecksum buff (n + 1) =
        (makeChecksum buff n + buff.getD n 0 <<< (8 * ((n + 1) % 2))) % 65536 := by
      rw [makeChecksum, makeChecksum, List.range_succ, List.foldl_append]
      rfl
    rw [h1, ih, Finset.sum_range_succ, Nat.shiftLeft_eq, Nat.mod_add_mod]

/-- Each in-memory integer image has exactly its width in bytes. -/
theorem memBytes_length (isBE : Bool) (w x : Nat) : (memBytes isBE w x).length = w := by
  cases isBE <;> simp [memBytes, bytesLE]

/-- The assembled head (bytes 0 through 75) has length 76. -/
theorem packetHead_length (isBE : Bool) (s : KlvState)
    (hm : s.missionId.length = 12) (hp : s.platform.length = 12) :
    (packetHead isBE s).length = 76 := by
  simp [packetHead, memBytes_length, hm, hp, uasLdsKey, timestampTagLen, missionTagLen,
    platformTagLen, latitudeTagLen, longitudeTagLen, altitudeTagLen, versionTagLen,
    checksumTagLen]

/-- C2: `makeChecksum buff len` is the wraparound mod-65536 sum of the bytes
at indices `0 .. len-1`, each shifted left by 8 bits when `(i+1)` is odd and
by 0 bits otherwise; and every encoded packet consists of its first 76 bytes
followed by the stored image of the checksum computed over exactly those
first 76 bytes, so the two checksum bytes at offsets 76-77 are never an
input to their own computation. -/
theorem c2_checksum_definition :
    (∀ (buff : List Nat) (len : Nat),
        makeChecksum buff len =
          (∑ i ∈ Finset.range len, buff.getD i 0 * 2 ^ (8 * ((i + 1) % 2))) % 65536) ∧
    (∀ (isBE : Bool) (s : KlvState), s.missionId.length = 12 → s.platform.length = 12 →
        makePacket isBE s =
          (makePacket isBE s).take 76 ++
            (memBytes isBE 4 (makeChecksum ((makePacket isBE s).take 76) 76)).take 2) := by
  refine ⟨makeChecksum_eq_sum, fun isBE s hm hp => ?_⟩
  have htake : (makePacket isBE s).take 76 = packetHead isBE s := by
    rw [makePacket]
    exact List.take_left' (packetHead_length isBE s hm hp)
  rw [htake, makePacket]

/-- Witness for C2: the checksum formula at a concrete buffer, and the
packet decomposition at the concrete little-endian default-configuration
state. -/
theorem c2_checksum_definition_witness :
    (makeChecksum [0xAB, 0xCD, 0x12] 3 =
      (∑ i ∈ Finset.range 3, [0xAB, 0xCD, 0x12].getD i 0 * 2 ^ (8 * ((i + 1) % 2))) % 65536) ∧
    witState.missionId.length = 12 ∧ witState.platform.length = 12 ∧
    makePacket false witState =
      (makePacket false witState).take 76 ++
        (memBytes false 4 (makeChecksum ((makePacket false witState).take 76) 76)).take 2 :=
  ⟨c2_checksum_definition.1 [0xAB, 0xCD, 0x12] 3, rfl, rfl,
    c2_checksum_definition.2 false witState rfl rfl⟩

/-- C8: the checksum is deterministic, and changing any single in-range byte
of the buffer always changes the resulting 16-bit checksum. -/
theorem c8_checksum_byte_sensitivity :
    (∀ (b1 b2 : List Nat) (len : Nat), b1 = b2 → makeChecksum b1 len = makeChecksum b2 len) ∧
    (∀ (l : List Nat) (i b : Nat), i < l.length → (∀ x ∈ l, x < 256) → b < 256 →
        b ≠ l.getD i 0 → makeChecksum (l.set i b) l.length ≠ makeChecksum l l.length) := by
  constructor
  · intro b1 b2 len h
    rw [h]
  · intro l i b hi hall hb hne heq
    rw [makeChecksum_eq_sum, makeChecksum_eq_sum] at heq
    have hmem : i ∈ Finset.range l.length := Finset.mem_range.mpr hi
    rw [Finset.sum_eq_sum_diff_singleton_add hmem,
      Finset.sum_eq_sum_diff_singleton_add hmem] at heq
    have hagree : ∑ j ∈ Finset.range l.length \ {i},
        (l.set i b).getD j 0 * 2 ^ (8 * ((j + 1) % 2)) =
        ∑ j ∈ Finset.range l.length \ {i}, l.getD j 0 * 2 ^ (8 * ((j + 1) % 2)) := by
      refine Finset.sum_congr rfl fun j hj => ?_
      have hji : i ≠ j := by
        rcases Finset.mem_sdiff.mp hj with ⟨_, hj2⟩
        intro hcon
        exact hj2 (Finset.mem_singleton.mpr hcon.symm)
      rw [List.getD_eq_getElem?_getD, List.getD_eq_getElem?_getD,
        List.getElem?_set_ne hji]
    have hbi : (l.set i b).getD i 0 = b := by
      rw [List.getD_eq_getElem?_getD, List.getElem?_set_self hi]
      rfl
    have hai : l.getD i 0 < 256 := by
      rw [List.getD_eq_getElem?_getD, List.getElem?_eq_getElem hi]
      exact hall _ (List.getElem_mem hi)
    rw [hagree, hbi] at heq
    rcases Nat.mod_two_eq_zero_or_one (i + 1) with h2 | h2 <;> rw [h2] at heq
    · rw [show (2 : Nat) ^ (8 * 0) = 1 by norm_num] at heq
      omega
    · rw [show (2 : Nat) ^ (8 * 1) = 256 by norm_num] at heq
      omega

/-- Witness for C8: flipping byte 0 of the buffer `[1, 2]` changes the
checksum. -/
theorem c8_checksum_byte_sensitivity_witness :
    0 < [1, 2].length ∧ (∀ x ∈ [1, 2], x < 256) ∧ 3 < 256 ∧ 3 ≠ [1, 2].getD 0 0 ∧
    makeChecksum ([1, 2].set 0 3) [1, 2].length ≠ makeChecksum [1, 2] [1, 2].length :=
  ⟨by decide, by decide, by decide, by decide,
    c8_checksum_byte_sensitivity.2 [1, 2] 0 3 (by decide) (by decide) (by decide) (by decide)⟩

/-- A bitwise AND against the byte mask at bit position `8 k` extracts
byte `k`. -/
theorem land_byteMask (n k : Nat) : n &&& (255 * 2 ^ k) = n / 2 ^ k % 256 * 2 ^ k := by
  have h255 : (255 : Nat) = 2 ^ 8 - 1 := by norm_num
  have h256 : (256 : Nat) = 2 ^ 8 := by norm_num
  apply Nat.eq_of_testBit_eq
  intro j
  rw [h255, h256, ← Nat.shiftLeft_eq, ← Nat.shiftLeft_eq, ← Nat.shiftRight_eq_div_pow]
  simp only [Nat.testBit_and, Nat.testBit_shiftLeft, Nat.testBit_mod_two_pow,
    Nat.testBit_shiftRight, Nat.testBit_two_pow_sub_one]
  by_cases hk : k ≤ j
  · rw [Nat.add_sub_cancel' hk]
    simp [ge_iff_le, hk, Bool.and_comm, Bool.and_left_comm]
  · simp [ge_iff_le, hk]

/-- Closed arithmetic form of the little-endian branch of `htonll`: the
mask-and-shift expression is the byte reversal of the low 8 bytes. -/
theorem htonll_false_closed (n : Nat) :
    htonll false n =
      2 ^ 56 * (n % 256) + (2 ^ 48 * (n / 2 ^ 8 % 256) + (2 ^ 40 * (n / 2 ^ 16 % 256) +
      (2 ^ 32 * (n / 2 ^ 24 % 256) + (2 ^ 24 * (n / 2 ^ 32 % 256) +
      (2 ^ 16 * (n / 2 ^ 40 % 256) + (2 ^ 8 * (n / 2 ^ 48 % 256) + n / 2 ^ 56 % 256)))))) := by
  have hA : (n &&& 0xFF) <<< 56 = 2 ^ 56 * (n % 256) := by
    have h0 := land_byteMask n 0
    norm_num at h0
    rw [h0, Nat.shiftLeft_eq]
    ring
  have hB : (n &&& 0xFF00000000000000) >>> 56 = n / 2 ^ 56 % 256 := by
    rw [show (0xFF00000000000000 : Nat) = 255 * 2 ^ 56 by norm_num, land_byteMask,
      Nat.shiftRight_eq_div_pow, Nat.mul_div_cancel _ (by positivity)]
  have hC : (n &&& 0xFF00) <<< 40 = 2 ^ 48 * (n / 2 ^ 8 % 256) := by
    rw [show (0xFF00 : Nat) = 255 * 2 ^ 8 by norm_num, land_byteMask, Nat.shiftLeft_eq]
    ring
  have hD : (n &&& 0x00FF000000000000) >>> 40 = 2 ^ 8 * (n / 2 ^ 48 % 256) := by
    rw [show (0x00FF000000000000 : Nat) = 255 * 2 ^ 48 by norm_num, land_byteMask,
      Nat.shiftRight_eq_div_pow, show (2 : Nat) ^ 48 = 2 ^ 8 * 2 ^ 40 by norm_num,
      ← Nat.mul_assoc, Nat.mul_div_cancel _ (by positivity)]
    ring
  have hE : (n &&& 0xFF0000) <<< 24 = 2 ^ 40 * (n / 2 ^ 16 % 256) := by
    rw [show (0xFF0000 : Nat) = 255 * 2 ^ 16 by norm_num, land_byteMask, Nat.shiftLeft_eq]
    ring
  have hF : (n &&& 0x0000FF0000000000) >>> 24 = 2 ^ 16 * (n / 2 ^ 40 % 256) := by
    rw [show (0x0000FF0000000000 : Nat) = 255 * 2 ^ 40 by norm_num, land_byteMask,
      Nat.shiftRight_eq_div_pow, show (2 : Nat) ^ 40 = 2 ^ 16 * 2 ^ 24 by norm_num,
      ← Nat.mul_assoc, Nat.mul_div_cancel _ (by positivity)]
    ring
  have hG : (n &&& 0xFF000000) <<< 8 = 2 ^ 32 * (n / 2 ^ 24 % 256) := by
    rw [show (0xFF000000 : Nat) = 255 * 2 ^ 24 by norm_num, land_byteMask, Nat.shiftLeft_eq]
    ring
  have hH : (n &&& 0x000000FF00000000) >>> 8 = 2 ^ 24 * (n / 2 ^ 32 % 256) := by
    rw [show (0x000000FF00000000 : Nat) = 255 * 2 ^ 32 by norm_num, land_byteMask,
      Nat.shiftRight_eq_div_pow, show (2 : Nat) ^ 32 = 2 ^ 24 * 2 ^ 8 by norm_num,
      ← Nat.mul_assoc, Nat.mul_div_cancel _ (by positivity)]
    ring
  have hsw : htonll false n =
      ((n &&& 0xFF) <<< 56) ||| ((n &&& 0xFF00000000000000) >>> 56) |||
      ((n &&& 0xFF00) <<< 40) ||| ((n &&& 0x00FF000000000000) >>> 40) |||
      ((n &&& 0xFF0000) <<< 24) ||| ((n &&& 0x0000FF0000000000) >>> 24) |||
      ((n &&& 0xFF000000) <<< 8) ||| ((n &&& 0x000000FF00000000) >>> 8) := rfl
  rw [hsw, hA, hB, hC, hD, hE, hF, hG, hH]
  have b0 : n % 256 < 256 := Nat.mod_lt _ (by norm_num)
  have b1 : n / 2 ^ 8 % 256 < 256 := Nat.mod_lt _ (by norm_num)
  have b2 : n / 2 ^ 16 % 256 < 256 := Nat.mod_lt _ (by norm_num)
  have b3 : n / 2 ^ 24 % 256 < 256 := Nat.mod_lt _ (by norm_num)
  have b4 : n / 2 ^ 32 % 256 < 256 := Nat.mod_lt _ (by norm_num)
  have b5 : n / 2 ^ 40 % 256 < 256 := Nat.mod_lt _ (by norm_num)
  have b6 : n / 2 ^ 48 % 256 < 256 := Nat.mod_lt _ (by norm_num)
  have b7 : n / 2 ^ 56 % 256 < 256 := Nat.mod_lt _ (by norm_num)
  generalize n % 256 = a0 at b0
  generalize n / 2 ^ 8 % 256 = a1 at b1
  generalize n / 2 ^ 16 % 256 = a2 at b2
  generalize n / 2 ^ 24 % 256 = a3 at b3
  generalize n / 2 ^ 32 % 256 = a4 at b4
  generalize n / 2 ^ 40 % 256 = a5 at b5
  generalize n / 2 ^ 48 % 256 = a6 at b6
  generalize n / 2 ^ 56 % 256 = a7 at b7
  have h67 : 2 ^ 8 * a6 + a7 = 2 ^ 8 * a6 ||| a7 :=
    Nat.mul_add_lt_is_or (by omega) a6
  have o67 : 2 ^ 8 * a6 ||| a7 < 2 ^ 16 :=
    Nat.or_lt_two_pow (by omega) (by omega)
  have h5 : 2 ^ 16 * a5 + (2 ^ 8 * a6 ||| a7) = 2 ^ 16 * a5 ||| (2 ^ 8 * a6 ||| a7) :=
    Nat.mul_add_lt_is_or o67 a5
  have o5 : 2 ^ 16 * a5 ||| (2 ^ 8 * a6 ||| a7) < 2 ^ 24 :=
    Nat.or_lt_two_pow (by omega) (by omega)
  have h4 : 2 ^ 24 * a4 + (2 ^ 16 * a5 ||| (2 ^ 8 * a6 ||| a7)) =
      2 ^ 24 * a4 ||| (2 ^ 16 * a5 ||| (2 ^ 8 * a6 ||| a7)) :=
    Nat.mul_add_lt_is_or o5 a4
  have o4 : 2 ^ 24 * a4 ||| (2 ^ 16 * a5 ||| (2 ^ 8 * a6 ||| a7)) < 2 ^ 32 :=
    Nat.or_lt_two_pow (by omega) (by omega)
  have h3 : 2 ^ 32 * a3 + (2 ^ 24 * a4 ||| (2 ^ 16 * a5 ||| (2 ^ 8 * a6 ||| a7))) =
      2 ^ 32 * a3 ||| (2 ^ 24 * a4 ||| (2 ^ 16 * a5 ||| (2 ^ 8 * a6 ||| a7))) :=
    Nat.mul_add_lt_is_or o4 a3
  have o3 : 2 ^ 32 * a3 ||| (2 ^ 24 * a4 ||| (2 ^ 16 * a5 ||| (2 ^ 8 * a6 ||| a7))) < 2 ^ 40 :=
    Nat.or_lt_two_pow (by omega) (by omega)
  have h2 : 2 ^ 40 * a2 +
      (2 ^ 32 * a3 ||| (2 ^ 24 * a4 ||| (2 ^ 16 * a5 ||| (2 ^ 8 * a6 ||| a7)))) =
      2 ^ 40 * a2 ||| (2 ^ 32 * a3 ||| (2 ^ 24 * a4 ||| (2 ^ 16 * a5 ||| (2 ^ 8 * a6 ||| a7)))) :=
    Nat.mul_add_lt_is_or o3 a2
  have o2 : 2 ^ 40 * a2 ||| (2 ^ 32 * a3 ||| (2 ^ 24 * a4 ||| (2 ^ 16 * a5 ||| (2 ^ 8 * a6 ||| a7)))) <
      2 ^ 48 :=
    Nat.or_lt_two_pow (by omega) (by omega)
  have h1 : 2 ^ 48 * a1 +
      (2 ^ 40 * a2 ||| (2 ^ 32 * a3 ||| (2 ^ 24 * a4 ||| (2 ^ 16 * a5 ||| (2 ^ 8 * a6 ||| a7))))) =
      2 ^ 48 * a1 |||
      (2 ^ 40 * a2 ||| (2 ^ 32 * a3 ||| (2 ^ 24 * a4 ||| (2 ^ 16 * a5 ||| (2 ^ 8 * a6 ||| a7))))) :=
    Nat.mul_add_lt_is_or o2 a1
  have o1 : 2 ^ 48 * a1 |||
      (2 ^ 40 * a2 ||| (2 ^ 32 * a3 ||| (2 ^ 24 * a4 ||| (2 ^ 16 * a5 ||| (2 ^ 8 * a6 ||| a7))))) <
      2 ^ 56 :=
    Nat.or_lt_two_pow (by omega) (by omega)
  have h0 : 2 ^ 56 * a0 +
      (2 ^ 48 * a1 |||
       (2 ^ 40 * a2 ||| (2 ^ 32 * a3 ||| (2 ^ 24 * a4 ||| (2 ^ 16 * a5 ||| (2 ^ 8 * a6 ||| a7)))))) =
      2 ^ 56 * a0 |||
      (2 ^ 48 * a1 |||
       (2 ^ 40 * a2 ||| (2 ^ 32 * a3 ||| (2 ^ 24 * a4 ||| (2 ^ 16 * a5 ||| (2 ^ 8 * a6 ||| a7)))))) :=
    Nat.mul_add_lt_is_or o1 a0
  rw [h67, h5, h4, h3, h2, h1, h0]
  ac_rfl

set_option maxHeartbeats 1000000 in
/-- Byte-level action of the little-endian branch of `htonll` on an
arbitrary 8-digit base-256 decomposition. -/
theorem htonll_digits (a0 a1 a2 a3 a4 a5 a6 a7 : Nat)
    (h0 : a0 < 256) (h1 : a1 < 256) (h2 : a2 < 256) (h3 : a3 < 256)
    (h4 : a4 < 256) (h5 : a5 < 256) (h6 : a6 < 256) (h7 : a7 < 256) :
    htonll false (2 ^ 56 * a0 + (2 ^ 48 * a1 + (2 ^ 40 * a2 + (2 ^ 32 * a3 +
      (2 ^ 24 * a4 + (2 ^ 16 * a5 + (2 ^ 8 * a6 + a7))))))) =
    2 ^ 56 * a7 + (2 ^ 48 * a6 + (2 ^ 40 * a5 + (2 ^ 32 * a4 +
      (2 ^ 24 * a3 + (2 ^ 16 * a2 + (2 ^ 8 * a1 + a0)))))) := by
  rw [htonll_false_closed]
  have e7 : (2 ^ 56 * a0 + (2 ^ 48 * a1 + (2 ^ 40 * a2 + (2 ^ 32 * a3 +
      (2 ^ 24 * a4 + (2 ^ 16 * a5 + (2 ^ 8 * a6 + a7))))))) % 256 = a7 := by omega
  have e6 : (2 ^ 56 * a0 + (2 ^ 48 * a1 + (2 ^ 40 * a2 + (2 ^ 32 * a3 +
      (2 ^ 24 * a4 + (2 ^ 16 * a5 + (2 ^ 8 * a6 + a7))))))) / 2 ^ 8 % 256 = a6 := by omega
  have e5 : (2 ^ 56 * a0 + (2 ^ 48 * a1 + (2 ^ 40 * a2 + (2 ^ 32 * a3 +
      (2 ^ 24 * a4 + (2 ^ 16 * a5 + (2 ^ 8 * a6 + a7))))))) / 2 ^ 16 % 256 = a5 := by omega
  have e4 : (2 ^ 56 * a0 + (2 ^ 48 * a1 + (2 ^ 40 * a2 + (2 ^ 32 * a3 +
      (2 ^ 24 * a4 + (2 ^ 16 * a5 + (2 ^ 8 * a6 + a7))))))) / 2 ^ 24 % 256 = a4 := by omega
  have e3 : (2 ^ 56 * a0 + (2 ^ 48 * a1 + (2 ^ 40 * a2 + (2 ^ 32 * a3 +
      (2 ^ 24 * a4 + (2 ^ 16 * a5 + (2 ^ 8 * a6 + a7))))))) / 2 ^ 32 % 256 = a3 := by omega
  have e2 : (2 ^ 56 * a0 + (2 ^ 48 * a1 + (2 ^ 40 * a2 + (2 ^ 32 * a3 +
      (2 ^ 24 * a4 + (2 ^ 16 * a5 + (2 ^ 8 * a6 + a7))))))) / 2 ^ 40 % 256 = a2 := by omega
  have e1 : (2 ^ 56 * a0 + (2 ^ 48 * a1 + (2 ^ 40 * a2 + (2 ^ 32 * a3 +
      (2 ^ 24 * a4 + (2 ^ 16 * a5 + (2 ^ 8 * a6 + a7))))))) / 2 ^ 48 % 256 = a1 := by omega
  have e0 : (2 ^ 56 * a0 + (2 ^ 48 * a1 + (2 ^ 40 * a2 + (2 ^ 32 * a3 +
      (2 ^ 24 * a4 + (2 ^ 16 * a5 + (2 ^ 8 * a6 + a7))))))) / 2 ^ 56 % 256 = a0 := by omega
  rw [e0, e1, e2, e3, e4, e5, e6, e7]

set_option maxHeartbeats 1000000 in
/-- C9: for every unsigned 64-bit value, applying `htonll` twice yields the
value back, on big-endian and on little-endian hosts alike. -/
theorem c9_htonll_involution (isBE : Bool) (n : Nat) (h : n < 2 ^ 64) :
    htonll isBE (htonll isBE n) = n := by
  cases isBE
  · rw [htonll_false_closed n]
    rw [htonll_digits _ _ _ _ _ _ _ _
      (Nat.mod_lt _ (by norm_num)) (Nat.mod_lt _ (by norm_num)) (Nat.mod_lt _ (by norm_num))
      (Nat.mod_lt _ (by norm_num)) (Nat.mod_lt _ (by norm_num)) (Nat.mod_lt _ (by norm_num))
      (Nat.mod_lt _ (by norm_num)) (Nat.mod_lt _ (by norm_num))]
    omega
  · rfl

/-- Witness for C9: the involution at the concrete value
`0x0102030405060708` on a little-endian host. -/
theorem c9_htonll_involution_witness :
    72623859790382856 < 2 ^ 64 ∧
    htonll false (htonll false 72623859790382856) = 72623859790382856 :=
  ⟨by norm_num, c9_htonll_involution false 72623859790382856 (by norm_num)⟩

/-- Truncation toward zero is monotone. -/
theorem ratTrunc_mono {q1 q2 : ℚ} (h : q1 ≤ q2) : ratTrunc q1 ≤ ratTrunc q2 := by
  unfold ratTrunc
  by_cases h1 : 0 ≤ q1
  · rw [if_pos h1, if_pos (le_trans h1 h)]
    exact Int.floor_mono h
  · rw [if_neg h1]
    by_cases h2 : 0 ≤ q2
    · rw [if_pos h2]
      exact le_trans (Int.ceil_le.mpr (by push_cast; linarith)) (Int.floor_nonneg.mpr h2)
    · rw [if_neg h2]
      exact Int.ceil_mono h

/-- Truncation toward zero fixes the integers. -/
theorem ratTrunc_intCast (z : Int) : ratTrunc (z : ℚ) = z := by
  unfold ratTrunc
  by_cases h : (0 : ℚ) ≤ (z : ℚ)
  · rw [if_pos h, Int.floor_intCast]
  · rw [if_neg h, Int.ceil_intCast]

/-- An integer lower bound on a rational bounds its truncation from below. -/
theorem ratTrunc_ge {a : Int} {q : ℚ} (h : (a : ℚ) ≤ q) : a ≤ ratTrunc q := by
  have := ratTrunc_mono h
  rwa [ratTrunc_intCast] at this

/-- An integer upper bound on a rational bounds its truncation from above. -/
theorem ratTrunc_le {a : Int} {q : ℚ} (h : q ≤ (a : ℚ)) : ratTrunc q ≤ a := by
  have := ratTrunc_mono h
  rwa [ratTrunc_intCast] at this

/-- C6 evaluation: the WIN32 branch of `updateTimestamp` clamps a pre-epoch
time to 0 and otherwise returns microseconds, but the Linux branch wraps a
pre-epoch `tv_sec = -1` around the unsigned 64-bit range instead of clamping,
and the macOS branch returns `((tv_sec * 10) XOR 9) + tv_nsec` (the `10^9`
in the source is an XOR, not a power of ten), which is not microseconds. -/
theorem c6_updateTimestamp_evaluation :
    updateTimestampWin 5 10 = 0 ∧
    updateTimestampWin 1000010 10 = 100000 ∧
    updateTimestampLinux (-1) 0 = 18446744073708551616 ∧
    (18446744073708551616 : Nat) ≠ 0 ∧
    updateTimestampMac 1 0 = 3 ∧
    (3 : Nat) ≠ 1000000 := by
  refine ⟨by decide, by decide, by decide, by decide, by decide, by decide⟩

/-- An option event that always makes its `switch` branch call `exit(0)`
forces the whole option loop to exit before `udpInit`, wherever it occurs. -/
theorem processOptions_exits (isBE : Bool) (e : OptEvent)
    (he : ∀ c : Config, processOpt isBE c e = none) (pre post : List OptEvent) (c : Config) :
    processOptions isBE (pre ++ e :: post) c = none := by
  induction pre generalizing c with
  | nil => simp [processOptions, he c]
  | cons a pre ih =>
    simp only [List.cons_append, processOptions]
    cases h : processOpt isBE c a
    · simp
    · simp only
      exact ih _

/-- C7 (amended): a rate above 1,000,000, or an out-of-range latitude,
longitude or altitude anywhere on the command line makes the process exit
during option processing, before the transport is opened and before any
packet is sent; in particular rate 1,000,001 never reaches transport setup.
(The rate check is only an upper bound: non-positive rates are accepted,
see the counterexample.) -/
theorem c7_cli_validation_amended :
    (∀ (isBE : Bool) (pre post : List OptEvent) (c : Config) (q : ℚ), 1000000 < q →
        processOptions isBE (pre ++ OptEvent.rate q :: post) c = none) ∧
    (∀ (isBE : Bool) (pre post : List OptEvent) (c : Config) (q : ℚ), q < -90 ∨ 90 < q →
        processOptions isBE (pre ++ OptEvent.lat q :: post) c = none) ∧
    (∀ (isBE : Bool) (pre post : List OptEvent) (c : Config) (q : ℚ), q < -180 ∨ 180 < q →
        processOptions isBE (pre ++ OptEvent.lon q :: post) c = none) ∧
    (∀ (isBE : Bool) (pre post : List OptEvent) (c : Config) (q : ℚ), q < -900 ∨ 19000 < q →
        processOptions isBE (pre ++ OptEvent.alt q :: post) c = none) ∧
    reachesTransport false [OptEvent.rate 1000001] = false := by
  refine ⟨?_, ?_, ?_, ?_, ?_⟩
  · intro isBE pre post c q hq
    refine processOptions_exits isBE _ (fun c2 => ?_) pre post c
    simp only [processOpt]
    rw [if_pos (show q > 1000000 from hq)]
  · intro isBE pre post c q hq
    refine processOptions_exits isBE _ (fun c2 => ?_) pre post c
    simp only [processOpt]
    rw [if_pos (show q < -90 ∨ q > 90 from hq)]
  · intro isBE pre post c q hq
    refine processOptions_exits isBE _ (fun c2 => ?_) pre post c
    simp only [processOpt]
    rw [if_pos (show q < -180 ∨ q > 180 from hq)]
  · intro isBE pre post c q hq
    refine processOptions_exits isBE _ (fun c2 => ?_) pre post c
    simp only [processOpt]
    rw [if_pos (show q < -900 ∨ q > 19000 from hq)]
  · norm_num [reachesTransport, processOptions, processOpt]

/-- Counterexample for C7 as stated: a rate of -1 is invalid per the claim
(the rate must be positive) yet the option loop accepts it and `main`
proceeds to open the transport and send packets. -/
theorem c7_cli_validation_counterexample :
    ¬ (0 < (-1 : ℚ)) ∧ reachesTransport false [OptEvent.rate (-1)] = true := by
  constructor
  · norm_num
  · norm_num [reachesTransport, processOptions, processOpt]

/-- Witness for C7: the amended theorem applied to rate 1,000,001 with the
default configuration. -/
theorem c7_cli_validation_amended_witness :
    (1000000 : ℚ) < 1000001 ∧
    processOptions false ([] ++ OptEvent.rate 1000001 :: []) (defaultConfig false) = none :=
  ⟨by norm_num,
    c7_cli_validation_amended.1 false [] [] (defaultConfig false) 1000001 (by norm_num)⟩

set_option maxRecDepth 4000 in
/-- C3 evaluation: on a little-endian host the timestamp, latitude,
longitude and altitude fields of a concrete transmission-loop packet are in
network (big-endian) order, but the two checksum bytes at offsets 76-77 are
stored in host (little-endian) order — low byte first — because `makePacket`
copies the `uint32_t` checksum with a raw `memcpy` and no byte-order
conversion; on a big-endian host the same `memcpy` stores the two HIGH-order
(zero) bytes of the `uint32_t`. In neither case is the checksum field in
network order. -/
theorem c3_checksum_not_network_order :
    listSlice (makePacket false witState) 19 8 = beBytes 8 0x0102030405060708 ∧
    listSlice (makePacket false witState) 57 4 = beBytes 4 1064272655 ∧
    listSlice (makePacket false witState) 63 4 = beBytes 4 (asUInt32 (-1112419378)) ∧
    listSlice (makePacket false witState) 69 2 = beBytes 2 4321 ∧
    makeChecksum ((makePacket false witState).take 76) 76 = 5816 ∧
    listSlice (makePacket false witState) 76 2 = [184, 22] ∧
    beBytes 2 5816 = [22, 184] ∧
    listSlice (makePacket false witState) 76 2 ≠ beBytes 2 5816 ∧
    makeChecksum ((makePacket true witStateBE).take 76) 76 = 5816 ∧
    listSlice (makePacket true witStateBE) 76 2 = [0, 0] ∧
    listSlice (makePacket true witStateBE) 76 2 ≠ beBytes 2 5816 := by
  refine ⟨by decide, by decide, by decide, by decide, by decide, by decide, by decide,
    by decide, by decide, by decide, by decide⟩

/-- The fuel-driven binary length is 0 only at 0. -/
theorem bitLenAux_zero (fu : Nat) : bitLenAux fu 0 = 0 := by
  cases fu <;> simp [bitLenAux]

/-- With enough fuel, `bitLenAux` brackets its argument between consecutive
powers of two. -/
theorem bitLenAux_spec : ∀ fu n : Nat, n ≤ fu → 1 ≤ n →
    2 ^ (bitLenAux fu n - 1) ≤ n ∧ n < 2 ^ bitLenAux fu n ∧ 1 ≤ bitLenAux fu n := by
  intro fu
  induction fu with
  | zero => intro n h1 h2; omega
  | succ fu ih =>
    intro n h1 h2
    rw [bitLenAux, if_neg (by omega)]
    by_cases hn : n / 2 = 0
    · have hn1 : n = 1 := by omega
      subst hn1
      rw [show (1 : Nat) / 2 = 0 from rfl, bitLenAux_zero]
      norm_num
    · obtain ⟨hl, hu, hone⟩ := ih (n / 2) (by omega) (by omega)
      have hpow : 2 ^ bitLenAux fu (n / 2) = 2 * 2 ^ (bitLenAux fu (n / 2) - 1) := by
        rw [← pow_succ']
        congr 1
        omega
      have hpow2 : 2 ^ (bitLenAux fu (n / 2) + 1) = 2 * 2 ^ bitLenAux fu (n / 2) := by
        rw [pow_succ']
      refine ⟨?_, ?_, by omega⟩
      · have : bitLenAux fu (n / 2) + 1 - 1 = bitLenAux fu (n / 2) := by omega
        rw [this]
        omega
      · rw [hpow2]
        omega

/-- The binary length brackets its argument between consecutive powers. -/
theorem bitLen_spec (n : Nat) (h : 1 ≤ n) :
    2 ^ (bitLen n - 1) ≤ n ∧ n < 2 ^ bitLen n ∧ 1 ≤ bitLen n :=
  bitLenAux_spec n n le_rfl h

/-- Binary length of zero. -/
theorem bitLen_zero : bitLen 0 = 0 := rfl

/-- The binary length is monotone. -/
theorem bitLen_mono {n1 n2 : Nat} (h : n1 ≤ n2) : bitLen n1 ≤ bitLen n2 := by
  by_cases h1 : n1 = 0
  · subst h1
    rw [bitLen_zero]
    exact Nat.zero_le _
  · obtain ⟨hl1, _, _⟩ := bitLen_spec n1 (by omega)
    obtain ⟨_, hu2, _⟩ := bitLen_spec n2 (by omega)
    by_contra hcon
    have hstep : bitLen n2 ≤ bitLen n1 - 1 := by omega
    have := Nat.pow_le_pow_right (by norm_num : 1 ≤ 2) hstep
    omega

/-- A bound below a power of two bounds the binary length. -/
theorem bitLen_le_of_lt {n : Nat} {p : Nat} (h : n < 2 ^ p) : bitLen n ≤ p := by
  by_cases h1 : n = 0
  · subst h1
    rw [bitLen_zero]
    exact Nat.zero_le _
  · obtain ⟨hl, _, hone⟩ := bitLen_spec n (by omega)
    by_contra hcon
    have hstep : p ≤ bitLen n - 1 := by omega
    have := Nat.pow_le_pow_right (by norm_num : 1 ≤ 2) hstep
    omega

/-- Above a power of two the binary length exceeds the exponent. -/
theorem lt_bitLen_of_le {n : Nat} {p : Nat} (h : 2 ^ p ≤ n) : p < bitLen n := by
  have h1 : 1 ≤ n := le_trans (Nat.one_le_two_pow) h
  obtain ⟨_, hu, _⟩ := bitLen_spec n h1
  by_contra hcon
  have hstep : bitLen n ≤ p := by omega
  have := Nat.pow_le_pow_right (by norm_num : 1 ≤ 2) hstep
  omega

/-- Rounding zero gives the zero value. -/
theorem roundSig_zero (p : Nat) (e : Int) : roundSig p 0 e = ⟨0, 0⟩ := by
  rw [roundSig, if_pos rfl]

/-- Rounding a nonzero significand that already fits in `p` bits is the
identity. -/
theorem roundSig_eq_self (p : Nat) (m e : Int) (h0 : m ≠ 0)
    (h : m.natAbs < 2 ^ p) : roundSig p m e = ⟨m, e⟩ := by
  rw [roundSig, if_neg h0, if_pos (bitLen_le_of_lt h)]

/-- Rounding a small integer at exponent 0 is the identity. -/
theorem roundSig_int_small (p : Nat) (m : Int) (h : m.natAbs < 2 ^ p) :
    roundSig p m 0 = ⟨m, 0⟩ := by
  by_cases h0 : m = 0
  · subst h0
    exact roundSig_zero p 0
  · exact roundSig_eq_self p m 0 h0 h

/-- `roundMag` is the identity below the bit width. -/
theorem roundMag_id (p : Nat) {n : Nat} (h : bitLen n ≤ p) : roundMag p n = n := by
  rw [roundMag, if_pos h]

/-- The value of a rounded non-negative significand is the rounded
magnitude at the input exponent. -/
theorem fval_roundSig (p : Nat) (m e : Int) (hm : 0 ≤ m) :
    fval (roundSig p m e) = ((roundMag p m.toNat : Nat) : ℚ) * (2 : ℚ) ^ e := by
  by_cases h0 : m = 0
  · subst h0
    rw [roundSig_zero]
    simp [fval, roundMag, bitLen_zero]
  · have hna : m.natAbs = m.toNat := by omega
    have hmneg : ¬m < 0 := by omega
    rw [roundSig, roundMag, if_neg h0, hna]
    by_cases hL : bitLen m.toNat ≤ p
    · rw [if_pos hL, if_pos hL, fval]
      congr 1
      exact_mod_cast (Int.toNat_of_nonneg hm).symm
    · rw [if_neg hL, if_neg hL]
      simp only [if_neg hmneg, fval]
      rw [zpow_add₀ (by norm_num : (2:ℚ) ≠ 0) e _, zpow_natCast]
      push_cast
      ring

/-- A rounded magnitude that needed rounding is at least the power of two
below its input. -/
theorem roundMag_ge (p : Nat) (hp : 0 < p) {n : Nat} (h : ¬bitLen n ≤ p) :
    2 ^ (bitLen n - 1) ≤ roundMag p n := by
  have hn0 : n ≠ 0 := by
    intro h0
    subst h0
    rw [bitLen_zero] at h
    omega
  obtain ⟨hl, hu, hone⟩ := bitLen_spec n (by omega)
  simp only [roundMag, if_neg h, Nat.shiftRight_eq_div_pow]
  have hq : 2 ^ (p - 1) ≤ n / 2 ^ (bitLen n - p) := by
    rw [Nat.le_div_iff_mul_le (Nat.pos_pow_of_pos _ (by norm_num))]
    rw [← pow_add]
    have : p - 1 + (bitLen n - p) = bitLen n - 1 := by omega
    rw [this]
    exact hl
  have hq2 : 2 ^ (p - 1) ≤ ite (2 ^ (bitLen n - p - 1) < n % 2 ^ (bitLen n - p) ∨
      n % 2 ^ (bitLen n - p) = 2 ^ (bitLen n - p - 1) ∧ n / 2 ^ (bitLen n - p) % 2 = 1)
      (n / 2 ^ (bitLen n - p) + 1) (n / 2 ^ (bitLen n - p)) := by
    split <;> omega
  calc 2 ^ (bitLen n - 1) = 2 ^ (p - 1) * 2 ^ (bitLen n - p) := by
        rw [← pow_add]
        congr 1
        omega
    _ ≤ _ := Nat.mul_le_mul_right _ hq2

/-- A rounded magnitude stays below the power of two above its input. -/
theorem roundMag_le_pow (p : Nat) {n : Nat} (h : ¬bitLen n ≤ p) :
    roundMag p n ≤ 2 ^ bitLen n := by
  have hn0 : n ≠ 0 := by
    intro h0
    subst h0
    rw [bitLen_zero] at h
    omega
  obtain ⟨hl, hu, hone⟩ := bitLen_spec n (by omega)
  simp only [roundMag, if_neg h, Nat.shiftRight_eq_div_pow]
  have hq : n / 2 ^ (bitLen n - p) < 2 ^ p := by
    rw [Nat.div_lt_iff_lt_mul (Nat.pos_pow_of_pos _ (by norm_num))]
    rw [← pow_add]
    have : p + (bitLen n - p) = bitLen n := by omega
    rw [this]
    exact hu
  have hq2 : ite (2 ^ (bitLen n - p - 1) < n % 2 ^ (bitLen n - p) ∨
      n % 2 ^ (bitLen n - p) = 2 ^ (bitLen n - p - 1) ∧ n / 2 ^ (bitLen n - p) % 2 = 1)
      (n / 2 ^ (bitLen n - p) + 1) (n / 2 ^ (bitLen n - p)) ≤ 2 ^ p := by
    split <;> omega
  calc _ ≤ 2 ^ p * 2 ^ (bitLen n - p) := Nat.mul_le_mul_right _ hq2
    _ = 2 ^ bitLen n := by
        rw [← pow_add]
        congr 1
        omega

/-- The rounded magnitude is a monotone function of the input magnitude. -/
theorem roundMag_mono (p : Nat) (hp : 0 < p) {n1 n2 : Nat} (h : n1 ≤ n2) :
    roundMag p n1 ≤ roundMag p n2 := by
  by_cases h2 : bitLen n2 ≤ p
  · have h1 : bitLen n1 ≤ p := le_trans (bitLen_mono h) h2
    rw [roundMag_id p h1, roundMag_id p h2]
    exact h
  · by_cases h1 : bitLen n1 ≤ p
    · rw [roundMag_id p h1]
      have hub : n1 < 2 ^ p := by
        by_cases hz : n1 = 0
        · subst hz
          exact Nat.pos_pow_of_pos _ (by norm_num)
        · obtain ⟨_, hu1, _⟩ := bitLen_spec n1 (by omega)
          exact lt_of_lt_of_le hu1 (Nat.pow_le_pow_right (by norm_num) h1)
      have hge := roundMag_ge p hp h2
      have hpow : 2 ^ p ≤ 2 ^ (bitLen n2 - 1) :=
        Nat.pow_le_pow_right (by norm_num) (by omega)
      omega
    · have hL12 : bitLen n1 ≤ bitLen n2 := bitLen_mono h
      by_cases hL : bitLen n1 = bitLen n2
      · have hn0 : n1 ≠ 0 := by
          intro h0
          subst h0
          rw [bitLen_zero] at h1
          omega
        simp only [roundMag, if_neg h1, if_neg h2, Nat.shiftRight_eq_div_pow, hL]
        set sh := bitLen n2 - p with hsh
        set T := 2 ^ sh with hT
        have hT0 : 0 < T := Nat.pos_pow_of_pos _ (by norm_num)
        have hq : n1 / T ≤ n2 / T := Nat.div_le_div_right h
        rcases lt_or_eq_of_le hq with hlt | heq
        · have hb1 : ite (2 ^ (sh - 1) < n1 % T ∨ n1 % T = 2 ^ (sh - 1) ∧ n1 / T % 2 = 1)
              (n1 / T + 1) (n1 / T) ≤ n1 / T + 1 := by
            split <;> omega
          have hb2 : n2 / T ≤ ite (2 ^ (sh - 1) < n2 % T ∨ n2 % T = 2 ^ (sh - 1) ∧ n2 / T % 2 = 1)
              (n2 / T + 1) (n2 / T) := by
            split <;> omega
          exact Nat.mul_le_mul_right _ (by omega)
        · have hr : n1 % T ≤ n2 % T := by
            have e1 := Nat.div_add_mod n1 T
            have e2 := Nat.div_add_mod n2 T
            rw [heq] at e1
            set X := T * (n2 / T) with hX
            omega
          refine Nat.mul_le_mul_right _ ?_
          rw [heq]
          by_cases hc : 2 ^ (sh - 1) < n1 % T ∨ n1 % T = 2 ^ (sh - 1) ∧ n2 / T % 2 = 1
          · rw [if_pos hc]
            rcases hc with hc | ⟨hceq, hcodd⟩
            · rw [if_pos (Or.inl (lt_of_lt_of_le hc hr))]
            · rcases lt_or_eq_of_le (hceq ▸ hr) with hgt | heq2
              · rw [if_pos (Or.inl hgt)]
              · rw [if_pos (Or.inr ⟨heq2.symm, hcodd⟩)]
          · rw [if_neg hc]
            split <;> omega
      · have hlt : bitLen n1 < bitLen n2 := lt_of_le_of_ne hL12 hL
        calc roundMag p n1 ≤ 2 ^ bitLen n1 := roundMag_le_pow p h1
          _ ≤ 2 ^ (bitLen n2 - 1) := Nat.pow_le_pow_right (by norm_num) (by omega)
          _ ≤ roundMag p n2 := roundMag_ge p hp h2

/-- The binary length of a power of two. -/
theorem bitLen_two_pow (p : Nat) : bitLen (2 ^ p) = p + 1 := by
  have h1 := lt_bitLen_of_le (le_refl (2 ^ p))
  have hpos : 0 < (2 : Nat) ^ p := Nat.pos_pow_of_pos _ (by norm_num)
  have hlt : (2 : Nat) ^ p < 2 ^ (p + 1) := by
    rw [pow_succ]
    omega
  have h2 : bitLen (2 ^ p) ≤ p + 1 := bitLen_le_of_lt hlt
  omega

/-- The rounded magnitude is the identity up to and including `2 ^ p`. -/
theorem roundMag_id_of_le (p : Nat) (hp : 0 < p) {n : Nat} (h : n ≤ 2 ^ p) :
    roundMag p n = n := by
  rcases lt_or_eq_of_le h with hlt | heq
  · exact roundMag_id p (bitLen_le_of_lt hlt)
  · subst heq
    have hL : bitLen (2 ^ p) = p + 1 := bitLen_two_pow p
    simp only [roundMag, Nat.shiftRight_eq_div_pow, hL]
    rw [if_neg (by omega : ¬p + 1 ≤ p)]
    have hsh : p + 1 - p = 1 := by omega
    rw [hsh]
    have hdiv : 2 ^ p / 2 ^ 1 = 2 ^ (p - 1) := Nat.pow_div (by omega) (by norm_num)
    have hmod : 2 ^ p % 2 ^ 1 = 0 := by
      have : 2 ^ p = 2 ^ (p - 1) * 2 := by
        rw [← pow_succ]
        congr 1
        omega
      rw [pow_one, this, Nat.mul_mod_left]
    rw [hdiv, hmod]
    have hcond : ¬(2 ^ (1 - 1) < 0 ∨ (0 : Nat) = 2 ^ (1 - 1) ∧ 2 ^ (p - 1) % 2 = 1) := by
      norm_num
    rw [if_neg hcond, pow_one, ← pow_succ]
    congr 1
    omega

/-- Rounding preserves the value of anything no larger than `2 ^ p`. -/
theorem roundSig_val_id (p : Nat) (hp : 0 < p) (m e : Int) (hm : 0 ≤ m)
    (hb : m.toNat ≤ 2 ^ p) : fval (roundSig p m e) = fval ⟨m, e⟩ := by
  rw [fval_roundSig p m e hm, roundMag_id_of_le p hp hb, fval]
  dsimp only
  congr 1
  exact_mod_cast Int.toNat_of_nonneg hm

/-- Rounding keeps a non-negative significand non-negative. -/
theorem roundSig_m_nonneg (p : Nat) (m e : Int) (hm : 0 ≤ m) :
    0 ≤ (roundSig p m e).m := by
  by_cases h0 : m = 0
  · subst h0
    rw [roundSig_zero]
  · have hneg : ¬m < 0 := by omega
    simp only [roundSig, if_neg h0, if_neg hneg]
    split
    · exact hm
    · split <;> exact Int.natCast_nonneg _

/-- The rounded significand never exceeds `2 ^ p`. -/
theorem roundSig_m_le (p : Nat) (m e : Int) (hm : 0 ≤ m) :
    (roundSig p m e).m.toNat ≤ 2 ^ p := by
  by_cases h0 : m = 0
  · subst h0
    rw [roundSig_zero]
    exact Nat.zero_le _
  · have hneg : ¬m < 0 := by omega
    simp only [roundSig, if_neg h0, if_neg hneg, Nat.shiftRight_eq_div_pow]
    by_cases hL : bitLen m.natAbs ≤ p
    · rw [if_pos hL]
      dsimp only
      obtain ⟨_, hu, _⟩ := bitLen_spec m.natAbs (by omega)
      have := Nat.pow_le_pow_right (by norm_num : 1 ≤ 2) hL
      omega
    · rw [if_neg hL]
      dsimp only
      rw [Int.toNat_natCast]
      obtain ⟨_, hu, _⟩ := bitLen_spec m.natAbs (by omega)
      have hq : m.natAbs / 2 ^ (bitLen m.natAbs - p) < 2 ^ p := by
        rw [Nat.div_lt_iff_lt_mul (Nat.pos_pow_of_pos _ (by norm_num))]
        rw [← pow_add]
        refine lt_of_lt_of_le hu (Nat.pow_le_pow_right (by norm_num) (by omega))
      split <;> omega

/-- The rounded exponent of a nonzero input. -/
theorem roundSig_e_eq (p : Nat) (m e : Int) (h0 : m ≠ 0) :
    (roundSig p m e).e = e + ((bitLen m.natAbs - p : Nat) : ℤ) := by
  simp only [roundSig, if_neg h0]
  split
  · have : bitLen m.natAbs - p = 0 := by omega
    rw [this]
    simp
  · rfl

/-- Adding the `float` zero on the left preserves the value of a rounded
operand with a non-positive exponent. -/
theorem fval_fAdd_zero (b : FloatVal) (hm : 0 ≤ b.m) (hb : b.m.toNat ≤ 2 ^ 24)
    (he : b.e ≤ 0) : fval (fAdd ⟨0, 0⟩ b) = fval b := by
  obtain ⟨bm, be⟩ := b
  dsimp only at hm hb he
  rw [fAdd]
  dsimp only
  by_cases h : (0 : Int) ≤ be
  · have hb0 : be = 0 := by omega
    subst hb0
    rw [if_pos h]
    norm_num
    exact roundSig_val_id 24 (by norm_num) bm 0 hm hb
  · rw [if_neg h, zero_mul, zero_add]
    exact roundSig_val_id 24 (by norm_num) bm be hm hb

/-- The C cast of a `float` to an integer truncates its exact value toward
zero. -/
theorem floatToInt_trunc (d : FloatVal) : floatToInt d = ratTrunc (fval d) := by
  obtain ⟨m, e⟩ := d
  rw [floatToInt, fval]
  dsimp only
  by_cases he : (0 : Int) ≤ e
  · rw [if_pos he]
    have hcast : (m : ℚ) * (2 : ℚ) ^ e = ((m * ((2 ^ e.toNat : Nat) : ℤ) : ℤ) : ℚ) := by
      push_cast
      rw [← zpow_natCast (2 : ℚ) e.toNat, Int.toNat_of_nonneg he]
    rw [hcast, ratTrunc_intCast]
  · rw [if_neg he]
    set k := (-e).toNat with hkdef
    have hk : e = -(k : ℤ) := by omega
    have hval : (m : ℚ) * (2 : ℚ) ^ e = (m : ℚ) / ((2 ^ k : Nat) : ℚ) := by
      rw [hk, zpow_neg, zpow_natCast, div_eq_mul_inv]
      push_cast
      ring
    rw [hval]
    by_cases hmneg : m < 0
    · rw [if_pos hmneg]
      have hneg : ((m : ℚ) / ((2 ^ k : Nat) : ℚ)) < 0 := by
        apply div_neg_of_neg_of_pos
        · exact_mod_cast hmneg
        · positivity
      rw [ratTrunc, if_neg (not_le.mpr hneg)]
      have hmabs : (m : ℚ) = -((m.natAbs : ℤ) : ℚ) := by
        have h2 : m = -((m.natAbs : ℤ)) := by omega
        exact_mod_cast h2
      rw [hmabs, neg_div, Int.ceil_neg]
      congr 1
      rw [Rat.floor_intCast_div_natCast]
      exact (Int.natCast_div _ _).symm
    · rw [if_neg hmneg]
      have hpos : (0 : ℚ) ≤ (m : ℚ) / ((2 ^ k : Nat) : ℚ) := by
        apply div_nonneg
        · exact_mod_cast (by omega : (0 : ℤ) ≤ m)
        · positivity
      rw [ratTrunc, if_pos hpos]
      have hmabs : (m : ℚ) = ((m.natAbs : ℤ) : ℚ) := by
        have h2 : m = ((m.natAbs : ℤ)) := by omega
        exact_mod_cast h2
      rw [hmabs, Rat.floor_intCast_div_natCast]
      exact (Int.natCast_div _ _).symm

/-- A small integer converts to `float` exactly. -/
theorem floatOfInt_small (z : Int) (h : z.natAbs < 2 ^ 24) :
    floatOfInt z = ⟨z, 0⟩ :=
  roundSig_int_small 24 z h

/-- Subtraction of two exactly represented small integers is exact. -/
theorem fSub_small (a b : Int) (h : (a - b).natAbs < 2 ^ 24) :
    fSub ⟨a, 0⟩ ⟨b, 0⟩ = ⟨a - b, 0⟩ := by
  rw [fSub, fAdd]
  dsimp only
  rw [if_pos (le_refl (0 : Int))]
  have h1 : ((0 : Int) - 0).toNat = 0 := rfl
  rw [h1]
  simp only [pow_zero, Nat.cast_one, mul_one]
  rw [show a + -b = a - b from (sub_eq_add_neg a b).symm]
  exact roundSig_int_small 24 (a - b) h

/-- The `float` slope constant `(65535 - 0) / (19000 - (-900))` computed by
`mapAltitude`: the correctly rounded quotient `65535 / 19900`. -/
theorem altSlope_eval :
    fDiv (fSub (floatOfInt 65535) (floatOfInt 0))
      (fSub (floatOfInt 19000) (floatOfInt (-900))) = ⟨13812749, -22⟩ := by
  decide

/-- Closed form of the altitude code: the product against the rounded
slope, rounded to 24 bits, scaled by `2 ^ -22` and truncated. -/
theorem altCode_closed (a : Int) (h1 : -900 ≤ a) (h2 : a ≤ 19000) :
    altCode a = ratTrunc
      (((roundMag 24 (13812749 * (a + 900)).toNat : Nat) : ℚ) * (2 : ℚ) ^ (-22 : ℤ)) := by
  have e0 : floatOfInt a = ⟨a, 0⟩ := floatOfInt_small a (by omega)
  have e900 : floatOfInt (-900) = ⟨-900, 0⟩ := by decide
  have eSub : fSub ⟨a, 0⟩ (floatOfInt (-900)) = ⟨a + 900, 0⟩ := by
    rw [e900, fSub_small a (-900) (by omega)]
    rw [show a - -900 = a + 900 from sub_neg_eq_add a 900]
  have eMul : fMul ⟨13812749, -22⟩ ⟨a + 900, 0⟩ =
      roundSig 24 (13812749 * (a + 900)) (-22) := by
    rw [fMul]
    norm_num
  have ez : floatOfInt 0 = ⟨0, 0⟩ := by decide
  have hM0 : (0 : Int) ≤ 13812749 * (a + 900) := by omega
  rw [altCode, mapValue, altSlope_eval, e0, eSub, eMul, ez, floatToInt_trunc]
  set M := 13812749 * (a + 900) with hMdef
  have hMb : M.natAbs < 2 ^ 38 := by
    rw [hMdef]
    omega
  have hYe : (roundSig 24 M (-22)).e ≤ 0 := by
    by_cases hz : M = 0
    · rw [hz, roundSig_zero]
    · rw [roundSig_e_eq 24 M (-22) hz]
      have hbl : bitLen M.natAbs ≤ 38 := bitLen_le_of_lt hMb
      omega
  rw [fval_fAdd_zero (roundSig 24 M (-22)) (roundSig_m_nonneg 24 M (-22) hM0)
    (roundSig_m_le 24 M (-22) hM0) hYe]
  rw [fval_roundSig 24 M (-22) hM0]

/-- The altitude code is monotone on the mapped integer domain. -/
theorem altCode_mono {a b : Int} (ha1 : -900 ≤ a) (hab : a ≤ b)
    (hb2 : b ≤ 19000) : altCode a ≤ altCode b := by
  rw [altCode_closed a ha1 (by omega), altCode_closed b (by omega) hb2]
  apply ratTrunc_mono
  have hmag : roundMag 24 (13812749 * (a + 900)).toNat ≤
      roundMag 24 (13812749 * (b + 900)).toNat :=
    roundMag_mono 24 (by norm_num) (by omega)
  have h2pos : (0 : ℚ) ≤ (2 : ℚ) ^ (-22 : ℤ) := by positivity
  apply mul_le_mul_of_nonneg_right _ h2pos
  exact_mod_cast hmag

/-- The altitude code is non-negative on the domain. -/
theorem altCode_nonneg (a : Int) (h1 : -900 ≤ a) (h2 : a ≤ 19000) :
    0 ≤ altCode a := by
  rw [altCode_closed a h1 h2]
  exact ratTrunc_ge (by positivity)

/-- The altitude code at the lower endpoint. -/
theorem altCode_bot : altCode (-900) = 0 := by
  decide

set_option maxRecDepth 2000 in
/-- The altitude code at the upper endpoint. -/
theorem altCode_top : altCode 19000 = 65535 := by
  decide

/-- The altitude code stays at or below 65535 on the domain. -/
theorem altCode_le (a : Int) (h1 : -900 ≤ a) (h2 : a ≤ 19000) :
    altCode a ≤ 65535 := by
  have := altCode_mono (a := a) (b := 19000) h1 h2 le_rfl
  rw [altCode_top] at this
  exact this

/-- Evaluation unfolding for `floatOfRat` at a rational literal. -/
theorem floatOfRat_eval (q : ℚ) (n : Int) (d : Nat) (hn : q.num = n)
    (hd : q.den = d) :
    floatOfRat q = roundSig 24 (fDivP 53 ⟨n, 0⟩ ⟨(d : Int), 0⟩).m
      (fDivP 53 ⟨n, 0⟩ ⟨(d : Int), 0⟩).e := by
  rw [floatOfRat, doubleOfRat, hn, hd]

/-- The altitude map as an integer: within the domain the `uint16_t`
reduction and `toNat` are the identity on the altitude code. -/
theorem mapAltitude_eq (v : ℚ) (h1 : -900 ≤ v) (h2 : v ≤ 19000) :
    (mapAltitude v : Int) = altCode (ratTrunc v) := by
  have ha1 : -900 ≤ ratTrunc v := ratTrunc_ge (by push_cast; exact h1)
  have ha2 : ratTrunc v ≤ 19000 := ratTrunc_le (by push_cast; exact h2)
  have hn := altCode_nonneg _ ha1 ha2
  have hl := altCode_le _ ha1 ha2
  rw [mapAltitude]
  rw [Int.emod_eq_of_lt hn (by omega)]
  exact Int.toNat_of_nonneg hn

/-- C5 (amended): mapAltitude sends -900 to 0 and 19000 to 65535, is
monotone on [-900, 19000], always fits in 16 unsigned bits, and equals
the truncation toward zero of the float-computed affine value altFloat
applied to the atoi-truncated input (the truncation of the exact affine
value differs from it at some inputs). -/
theorem c5_mapAltitude_amended :
    mapAltitude (-900) = 0 ∧ mapAltitude 19000 = 65535 ∧
    (∀ v1 v2 : ℚ, -900 ≤ v1 → v1 ≤ v2 → v2 ≤ 19000 →
      mapAltitude v1 ≤ mapAltitude v2) ∧
    (∀ v : ℚ, mapAltitude v < 65536) ∧
    (∀ v : ℚ, -900 ≤ v → v ≤ 19000 →
      (mapAltitude v : Int) = ratTrunc (fval (altFloat (ratTrunc v)))) := by
  refine ⟨?_, ?_, ?_, ?_, ?_⟩
  · rw [mapAltitude, show ((-900 : ℚ)) = (((-900 : ℤ)) : ℚ) by norm_num,
      ratTrunc_intCast, altCode_bot]
    decide
  · rw [mapAltitude, show ((19000 : ℚ)) = (((19000 : ℤ)) : ℚ) by norm_num,
      ratTrunc_intCast, altCode_top]
    decide
  · intro v1 v2 h1 h12 h2
    have e1 := mapAltitude_eq v1 h1 (le_trans h12 h2)
    have e2 := mapAltitude_eq v2 (le_trans h1 h12) h2
    have hm := altCode_mono (ratTrunc_ge (by push_cast; exact h1))
      (ratTrunc_mono h12) (ratTrunc_le (by push_cast; exact h2))
    omega
  · intro v
    rw [mapAltitude]
    have hn := Int.emod_nonneg (altCode (ratTrunc v)) (by norm_num : (65536 : ℤ) ≠ 0)
    have hl := Int.emod_lt_of_pos (altCode (ratTrunc v)) (by norm_num : (0 : ℤ) < 65536)
    omega
  · intro v h1 h2
    rw [mapAltitude_eq v h1 h2]
    rw [show altCode (ratTrunc v) = floatToInt (altFloat (ratTrunc v)) from rfl]
    exact floatToInt_trunc _

/-- Witness for the amended C5 statement at concrete inputs. -/
theorem c5_mapAltitude_amended_witness :
    mapAltitude 300 ≤ mapAltitude 333 ∧ mapAltitude 99999 < 65536 ∧
    (mapAltitude 333 : Int) = ratTrunc (fval (altFloat 333)) := by
  refine ⟨c5_mapAltitude_amended.2.2.1 300 333 (by norm_num) (by norm_num)
    (by norm_num), c5_mapAltitude_amended.2.2.2.1 99999, ?_⟩
  have h := c5_mapAltitude_amended.2.2.2.2 333 (by norm_num) (by norm_num)
  rwa [show ratTrunc (333 : ℚ) = (333 : ℤ) by
    rw [show ((333 : ℚ)) = (((333 : ℤ)) : ℚ) by norm_num, ratTrunc_intCast]] at h

set_option maxRecDepth 2000 in
/-- C5 counterexample: at altitude 11497 the program computes 40826, one
more than the truncation of the exact affine value 40825.99...; the
original truncation-of-the-exact-affine-map clause is false. -/
theorem c5_mapAltitude_counterexample :
    mapAltitude 11497 = 40826 ∧
    ratTrunc ((65535 : ℚ) / 19900 * (11497 - -900)) = 40825 ∧
    exactAltCode 11497 = 40825 := by
  refine ⟨?_, ?_, by decide⟩
  · rw [mapAltitude, show ((11497 : ℚ)) = (((11497 : ℤ)) : ℚ) by norm_num,
      ratTrunc_intCast]
    decide
  · rw [ratTrunc, if_pos (by norm_num)]
    norm_num

set_option maxRecDepth 4000 in
/-- C4: in the program's `float` arithmetic the constant `-2147483647.0`
rounds to `-2 ^ 31`, so latitude -90 (and longitude -180) yields exactly
the reserved error code -2147483648, latitude 90 yields `2 ^ 31`, which
exceeds INT32_MAX (so the `(int32_t)` cast is undefined there), and the
distinct inputs 0 and 10^-9 collapse to the same code, refuting strict
monotonicity. -/
theorem c4_mapLatitude_error_code :
    mapLatitude (-90) = -2147483648 ∧ mapLongitude (-180) = -2147483648 ∧
    mapLatitude 90 = 2147483648 ∧ mapLatitude 0 = 0 ∧
    mapLatitude (1 / 1000000000) = 0 := by
  refine ⟨?_, ?_, ?_, ?_, ?_⟩
  · rw [mapLatitude, floatOfRat_eval _ (-90) 1 (by norm_num) (by norm_num)]
    decide
  · rw [mapLongitude, floatOfRat_eval _ (-180) 1 (by norm_num) (by norm_num)]
    decide
  · rw [mapLatitude, floatOfRat_eval _ 90 1 (by norm_num) (by norm_num)]
    decide
  · rw [mapLatitude, floatOfRat_eval _ 0 1 (by norm_num) (by norm_num)]
    decide
  · rw [mapLatitude, floatOfRat_eval _ 1 1000000000 (by norm_num) (by norm_num)]
    decide

set_option maxRecDepth 4000 in
/-- C10: `mapAltitude` parses its argument with `atoi`, so any two inputs
with the same integer part yield the same code (333 and 333.9 in
particular), while `mapLatitude` and `mapLongitude` parse with `atof` and
distinguish 33 from 33.9. -/
theorem c10_mapAltitude_atoi :
    (∀ v1 v2 : ℚ, ratTrunc v1 = ratTrunc v2 → mapAltitude v1 = mapAltitude v2) ∧
    mapAltitude 333 = mapAltitude (3339 / 10) ∧
    mapLatitude 33 ≠ mapLatitude (339 / 10) ∧
    mapLongitude 33 ≠ mapLongitude (339 / 10) := by
  have hcong : ∀ v1 v2 : ℚ, ratTrunc v1 = ratTrunc v2 →
      mapAltitude v1 = mapAltitude v2 := by
    intro v1 v2 h
    rw [mapAltitude, mapAltitude, h]
  refine ⟨hcong, ?_, ?_, ?_⟩
  · apply hcong
    rw [show ((333 : ℚ)) = (((333 : ℤ)) : ℚ) by norm_num, ratTrunc_intCast]
    rw [ratTrunc, if_pos (by norm_num)]
    norm_num
  · simp only [mapLatitude]
    rw [floatOfRat_eval (33 : ℚ) 33 1 (by norm_num) (by norm_num),
      floatOfRat_eval ((339 : ℚ) / 10) 339 10 (by norm_num) (by norm_num)]
    decide
  · simp only [mapLongitude]
    rw [floatOfRat_eval (33 : ℚ) 33 1 (by norm_num) (by norm_num),
      floatOfRat_eval ((339 : ℚ) / 10) 339 10 (by norm_num) (by norm_num)]
    decide

/-- Witness for C10: 333.5 and 333 share their integer part and map to
the same altitude code. -/
theorem c10_mapAltitude_atoi_witness :
    mapAltitude (667 / 2) = mapAltitude 333 := by
  apply c10_mapAltitude_atoi.1
  rw [show ((333 : ℚ)) = (((333 : ℤ)) : ℚ) by norm_num, ratTrunc_intCast]
  rw [ratTrunc, if_pos (by norm_num)]
  norm_num

end Klvgen
